import Mathlib

/-!
Verification of the `Index` class of `src/nn.py`: a mapping from a vocabulary
of objects to a contiguous range of integer indexes, with vectorized
encode/decode operations between object sequences and index / one-hot
representations.

Python dictionaries are modelled as insertion-ordered association lists with
unique keys (`dictGet` is `dict.get`).  Numpy arrays are modelled as `List Int`
(1-D) and `List (List Int)` (2-D, row-major).  Operations that can raise a
Python exception return `Except PyErr`.
-/

namespace StringsToVectors

/-- Kinds of Python runtime errors the modelled code can raise, plus the
`invalidArgument` kind that the specification suggests but the code never
produces. -/
inductive PyErr : Type
  /-- `ValueError` raised by `max()` applied to an empty sequence. -/
  | emptyMaxValueError
  /-- `ValueError` raised by `np.zeros` on a negative dimension. -/
  | negativeDimension
  /-- `IndexError` raised by writing outside the bounds of an array. -/
  | indexOutOfBounds
  /-- An explicit invalid-argument failure; never raised by this code. -/
  | invalidArgument
deriving DecidableEq

/-- Python `dict.get(x)`: first binding of `x` in an insertion-ordered
association list (keys are unique by construction, so first = only). -/
def dictGet {α β : Type} [DecidableEq α] : List (α × β) → α → Option β
  | [], _ => none
  | (a, b) :: rest, x => if x = a then some b else dictGet rest x

/-- The state of an `Index` object after `__init__` (src/nn.py lines 14-35). -/
structure Index (α : Type) where
  start : Int
  object_to_index : List (α × Int)
  index_to_object : List (Int × α)
  vocab_size : Int
  not_in_index : Int
deriving DecidableEq

/-- The construction loop of `Index.__init__` (src/nn.py lines 27-32): walk the
vocabulary once, and for each object not yet a key of `object_to_index` record
the forward and inverse bindings at the running index and increment it. -/
def initLoop {α : Type} [DecidableEq α] :
    List α → List (α × Int) → List (Int × α) → Int →
      List (α × Int) × List (Int × α) × Int
  | [], o2i, i2o, idx => (o2i, i2o, idx)
  | obj :: rest, o2i, i2o, idx =>
    if (dictGet o2i obj).isSome then
      initLoop rest o2i i2o idx
    else
      initLoop rest (o2i ++ [(obj, idx)]) (i2o ++ [(idx, obj)]) (idx + 1)

/-- `Index.__init__(vocab, start)` (src/nn.py lines 14-35): run the loop from
empty dictionaries, then set `vocab_size = idx - start` and
`not_in_index = start - 1`. -/
def mkIndex {α : Type} [DecidableEq α] (vocab : List α) (start : Int) : Index α :=
  let r := initLoop vocab [] [] start
  ⟨start, r.1, r.2.1, r.2.2 - start, start - 1⟩

/-- `Index.objects_to_indexes` (src/nn.py lines 37-48):
`[self.object_to_index.get(obj, self.not_in_index) for obj in object_seq]`. -/
def Index.objects_to_indexes {α : Type} [DecidableEq α]
    (I : Index α) (object_seq : List α) : List Int :=
  object_seq.map (fun obj => (dictGet I.object_to_index obj).getD I.not_in_index)

/-- `max(len(seq) for seq in seqs)` over a nonempty list (0 on empty; the
empty case is guarded separately, since Python `max` raises there). -/
def maxLen {α : Type} : List (List α) → Nat
  | [] => 0
  | seq :: rest => Nat.max seq.length (maxLen rest)

/-- `Index.objects_to_index_matrix` (src/nn.py lines 52-71): on an empty outer
sequence the `max` generator raises `ValueError`; otherwise allocate a
`len(seqs) × max_length` matrix filled with `not_in_index` and overwrite the
first `len(indexes)` cells of row `i` with the mapped indexes of sequence `i`. -/
def Index.objects_to_index_matrix {α : Type} [DecidableEq α]
    (I : Index α) (object_seq_seq : List (List α)) :
    Except PyErr (List (List Int)) :=
  match object_seq_seq with
  | [] => Except.error PyErr.emptyMaxValueError
  | _ =>
    let max_length := maxLen object_seq_seq
    Except.ok (object_seq_seq.map (fun seq =>
      let indexes := seq.map (fun obj =>
        (dictGet I.object_to_index obj).getD I.not_in_index)
      indexes ++ List.replicate (max_length - indexes.length) I.not_in_index))

/-- Numpy 1-D element assignment `v[idx] = x`: a negative index counts from
the end; an index outside `[-len, len)` raises `IndexError`. -/
def npSet (v : List Int) (idx : Int) (x : Int) : Except PyErr (List Int) :=
  let j : Int := if idx < 0 then idx + v.length else idx
  if 0 ≤ j ∧ j < (v.length : Int) then
    Except.ok (v.set j.toNat x)
  else
    Except.error PyErr.indexOutOfBounds

/-- The write loop of `objects_to_binary_vector` (src/nn.py lines 83-86):
for each object with an assigned index, set that cell of the vector to 1. -/
def binVecLoop {α : Type} [DecidableEq α]
    (o2i : List (α × Int)) : List α → List Int → Except PyErr (List Int)
  | [], v => Except.ok v
  | obj :: rest, v =>
    match dictGet o2i obj with
    | none => binVecLoop o2i rest v
    | some idx =>
      match npSet v idx 1 with
      | Except.ok v2 => binVecLoop o2i rest v2
      | Except.error e => Except.error e

/-- `Index.objects_to_binary_vector` (src/nn.py lines 73-87):
`np.zeros(vocab_size + start)` (raising on a negative size) followed by the
write loop. -/
def Index.objects_to_binary_vector {α : Type} [DecidableEq α]
    (I : Index α) (object_seq : List α) : Except PyErr (List Int) :=
  if I.vocab_size + I.start < 0 then
    Except.error PyErr.negativeDimension
  else
    binVecLoop I.object_to_index object_seq
      (List.replicate (I.vocab_size + I.start).toNat 0)

/-- The row loop of `objects_to_binary_matrix` (src/nn.py lines 101-102):
`matrix[i] = self.objects_to_binary_vector(seq)` for each row. -/
def binMatrixRows {α : Type} [DecidableEq α]
    (I : Index α) : List (List α) → Except PyErr (List (List Int))
  | [] => Except.ok []
  | seq :: rest =>
    match I.objects_to_binary_vector seq with
    | Except.ok v =>
      match binMatrixRows I rest with
      | Except.ok vs => Except.ok (v :: vs)
      | Except.error e => Except.error e
    | Except.error e => Except.error e

/-- `Index.objects_to_binary_matrix` (src/nn.py lines 89-103):
`np.zeros((len(seqs), vocab_size + start))` (raising on a negative width),
then one `objects_to_binary_vector` row per inner sequence.  The result keeps
the allocated column count alongside the rows, since numpy fixes the width
even when there are zero rows. -/
def Index.objects_to_binary_matrix {α : Type} [DecidableEq α]
    (I : Index α) (object_seq_seq : List (List α)) :
    Except PyErr (Nat × List (List Int)) :=
  if I.vocab_size + I.start < 0 then
    Except.error PyErr.negativeDimension
  else
    match binMatrixRows I object_seq_seq with
    | Except.ok rows => Except.ok ((I.vocab_size + I.start).toNat, rows)
    | Except.error e => Except.error e

/-- `Index.indexes_to_objects` (src/nn.py lines 106-117):
`[self.index_to_object[idx] for idx in index_vector if idx in self.index_to_object]`. -/
def Index.indexes_to_objects {α : Type} [DecidableEq α]
    (I : Index α) (index_vector : List Int) : List α :=
  index_vector.filterMap (fun idx => dictGet I.index_to_object idx)

/-- `Index.index_matrix_to_objects` (src/nn.py lines 119-131). -/
def Index.index_matrix_to_objects {α : Type} [DecidableEq α]
    (I : Index α) (index_matrix : List (List Int)) : List (List α) :=
  index_matrix.map I.indexes_to_objects

/-- Python `enumerate` over an integer vector, counting from `k`. -/
def pyEnum (k : Nat) : List Int → List (Nat × Int)
  | [] => []
  | v :: rest => (k, v) :: pyEnum (k + 1) rest

/-- `Index.binary_vector_to_objects` (src/nn.py lines 133-144):
`[self.index_to_object[idx] for idx, val in enumerate(vec) if val == 1 and idx in self.index_to_object]`. -/
def Index.binary_vector_to_objects {α : Type} [DecidableEq α]
    (I : Index α) (vec : List Int) : List α :=
  (pyEnum 0 vec).filterMap (fun p =>
    if p.2 = 1 then dictGet I.index_to_object (Int.ofNat p.1) else none)

/-- `Index.binary_matrix_to_objects` (src/nn.py lines 146-158). -/
def Index.binary_matrix_to_objects {α : Type} [DecidableEq α]
    (I : Index α) (binary_matrix : List (List Int)) : List (List α) :=
  binary_matrix.map I.binary_vector_to_objects

/-! ### Helper lemmas about `dictGet` -/

theorem dictGet_isSome_iff {α β : Type} [DecidableEq α] (d : List (α × β)) (x : α) :
    (dictGet d x).isSome ↔ x ∈ d.map Prod.fst := by
  induction d with
  | nil => simp [dictGet]
  | cons p rest ih =>
    obtain ⟨a, b⟩ := p
    by_cases h : x = a <;> simp [dictGet, h, ih]

theorem dictGet_eq_some_iff {α β : Type} [DecidableEq α] {d : List (α × β)}
    (hn : (d.map Prod.fst).Nodup) (x : α) (b : β) :
    dictGet d x = some b ↔ (x, b) ∈ d := by
  induction d with
  | nil => simp [dictGet]
  | cons p rest ih =>
    obtain ⟨a, c⟩ := p
    simp only [List.map_cons, List.nodup_cons] at hn
    by_cases h : x = a
    · subst h
      have hd : dictGet ((x, c) :: rest) x = some c := by simp [dictGet]
      rw [hd]
      constructor
      · intro hcb
        rw [Option.some.injEq] at hcb
        subst hcb
        exact List.mem_cons_self _ _
      · intro hm
        rcases List.mem_cons.1 hm with he | hm2
        · rw [Option.some.injEq]
          exact ((Prod.mk.injEq _ _ _ _).mp he.symm).2
        · exact absurd (List.mem_map.2 ⟨(x, b), hm2, rfl⟩) hn.1
    · have hd : dictGet ((a, c) :: rest) x = dictGet rest x := by simp [dictGet, h]
      rw [hd, ih hn.2]
      constructor
      · intro hm; exact List.mem_cons_of_mem _ hm
      · intro hm
        rcases List.mem_cons.1 hm with he | hm2
        · exact absurd (congrArg Prod.fst he) h
        · exact hm2

/-! ### The integer range of assigned indexes -/

/-- The list of integers `[start, start + 1, ..., start + n - 1]`, built by
appending at the right, matching the order in which `initLoop` assigns. -/
def intRange (start : Int) : Nat → List Int
  | 0 => []
  | n + 1 => intRange start n ++ [start + n]

theorem mem_intRange (start : Int) (n : Nat) (k : Int) :
    k ∈ intRange start n ↔ start ≤ k ∧ k < start + n := by
  induction n with
  | zero =>
    simp only [intRange, List.not_mem_nil, false_iff, not_and, not_lt,
      Nat.cast_zero, add_zero]
    omega
  | succ m ih =>
    simp only [intRange, List.mem_append, List.mem_singleton, ih]
    omega

theorem intRange_nodup (start : Int) (n : Nat) : (intRange start n).Nodup := by
  induction n with
  | zero => simp [intRange]
  | succ m ih =>
    simp only [intRange, List.nodup_append, ih, List.nodup_singleton, true_and,
      List.disjoint_singleton, mem_intRange]
    omega

/-! ### The construction invariant -/

/-- Invariant of the `__init__` loop state: the inverse dictionary mirrors
the forward one, the assigned indexes are exactly `start, start+1, ...` in
insertion order, the running index is `start` plus the number of entries, and
the keys are distinct. -/
def IndexInv {α : Type} (start : Int)
    (o2i : List (α × Int)) (i2o : List (Int × α)) (idx : Int) : Prop :=
  i2o = o2i.map (fun p => (p.2, p.1)) ∧
  o2i.map Prod.snd = intRange start o2i.length ∧
  idx = start + o2i.length ∧
  (o2i.map Prod.fst).Nodup

theorem initLoop_inv {α : Type} [DecidableEq α] (start : Int) (vocab : List α) :
    ∀ o2i i2o idx, IndexInv start o2i i2o idx →
      IndexInv start (initLoop vocab o2i i2o idx).1
        (initLoop vocab o2i i2o idx).2.1 (initLoop vocab o2i i2o idx).2.2 := by
  induction vocab with
  | nil => intro o2i i2o idx h; simpa [initLoop] using h
  | cons obj rest ih =>
    intro o2i i2o idx h
    cases hdg : dictGet o2i obj with
    | some k => simpa [initLoop, hdg] using ih _ _ _ h
    | none =>
      have hmem : obj ∉ o2i.map Prod.fst := by
        rw [← dictGet_isSome_iff, hdg]; simp
      obtain ⟨h1, h2, h3, h4⟩ := h
      have hnew : IndexInv start (o2i ++ [(obj, idx)]) (i2o ++ [(idx, obj)]) (idx + 1) := by
        refine ⟨?_, ?_, ?_, ?_⟩
        · simp [h1]
        · rw [List.map_append, h2, List.length_append]
          simp [intRange, h3]
        · simp only [List.length_append, List.length_singleton]
          omega
        · simp only [List.map_append, List.map_singleton, List.nodup_append,
            List.nodup_singleton, List.disjoint_singleton, h4, hmem]
          tauto
      simpa [initLoop, hdg] using ih _ _ _ hnew

theorem initLoop_keys {α : Type} [DecidableEq α] (vocab : List α) :
    ∀ (o2i : List (α × Int)) (i2o : List (Int × α)) (idx : Int) (x : α),
      x ∈ (initLoop vocab o2i i2o idx).1.map Prod.fst ↔
        x ∈ o2i.map Prod.fst ∨ x ∈ vocab := by
  induction vocab with
  | nil => intro o2i i2o idx x; simp [initLoop]
  | cons obj rest ih =>
    intro o2i i2o idx x
    cases hdg : dictGet o2i obj with
    | some k =>
      have hobj : obj ∈ o2i.map Prod.fst := by
        rw [← dictGet_isSome_iff, hdg]; simp
      rw [initLoop]
      simp only [hdg, Option.isSome_some, if_pos, ih, List.mem_cons]
      constructor
      · rintro (hk | hr)
        · exact Or.inl hk
        · exact Or.inr (Or.inr hr)
      · rintro (hk | rfl | hr)
        · exact Or.inl hk
        · exact Or.inl hobj
        · exact Or.inr hr
    | none =>
      rw [initLoop]
      simp only [hdg, Option.isSome_none, Bool.false_eq_true, if_neg, not_false_iff, ih,
        List.map_append, List.map_singleton, List.mem_append, List.mem_singleton,
        List.mem_cons]
      tauto

theorem initLoop_append {α : Type} [DecidableEq α] (l1 l2 : List α) :
    ∀ (o2i : List (α × Int)) (i2o : List (Int × α)) (idx : Int),
      initLoop (l1 ++ l2) o2i i2o idx =
        initLoop l2 (initLoop l1 o2i i2o idx).1 (initLoop l1 o2i i2o idx).2.1
          (initLoop l1 o2i i2o idx).2.2 := by
  induction l1 with
  | nil => intro o2i i2o idx; simp [initLoop]
  | cons obj rest ih =>
    intro o2i i2o idx
    cases hdg : dictGet o2i obj <;> simp [initLoop, hdg, ih]

/-! ### Derived facts about a constructed `Index` -/

theorem mkIndex_o2i {α : Type} [DecidableEq α] (vocab : List α) (start : Int) :
    (mkIndex vocab start).object_to_index = (initLoop vocab [] [] start).1 := rfl

theorem mkIndex_i2o {α : Type} [DecidableEq α] (vocab : List α) (start : Int) :
    (mkIndex vocab start).index_to_object = (initLoop vocab [] [] start).2.1 := rfl

theorem mkIndex_vocab_size {α : Type} [DecidableEq α] (vocab : List α) (start : Int) :
    (mkIndex vocab start).vocab_size = (initLoop vocab [] [] start).2.2 - start := rfl

theorem mkIndex_start {α : Type} [DecidableEq α] (vocab : List α) (start : Int) :
    (mkIndex vocab start).start = start := rfl

theorem mkIndex_not_in_index {α : Type} [DecidableEq α] (vocab : List α) (start : Int) :
    (mkIndex vocab start).not_in_index = start - 1 := rfl

theorem base_inv {α : Type} (start : Int) :
    IndexInv (α := α) start [] [] start :=
  ⟨rfl, rfl, by simp, List.nodup_nil⟩

theorem mkIndex_inv {α : Type} [DecidableEq α] (vocab : List α) (start : Int) :
    IndexInv start (mkIndex vocab start).object_to_index
      (mkIndex vocab start).index_to_object (initLoop vocab [] [] start).2.2 :=
  initLoop_inv start vocab [] [] start (base_inv start)

theorem i2o_eq_map_swap {α : Type} [DecidableEq α] (vocab : List α) (start : Int) :
    (mkIndex vocab start).index_to_object
      = (mkIndex vocab start).object_to_index.map (fun p => (p.2, p.1)) :=
  (mkIndex_inv vocab start).1

theorem o2i_snds {α : Type} [DecidableEq α] (vocab : List α) (start : Int) :
    (mkIndex vocab start).object_to_index.map Prod.snd
      = intRange start (mkIndex vocab start).object_to_index.length :=
  (mkIndex_inv vocab start).2.1

theorem o2i_keys_nodup {α : Type} [DecidableEq α] (vocab : List α) (start : Int) :
    ((mkIndex vocab start).object_to_index.map Prod.fst).Nodup :=
  (mkIndex_inv vocab start).2.2.2

theorem vocab_size_eq_length {α : Type} [DecidableEq α] (vocab : List α) (start : Int) :
    (mkIndex vocab start).vocab_size
      = ((mkIndex vocab start).object_to_index.length : Int) := by
  have h := (mkIndex_inv vocab start).2.2.1
  rw [mkIndex_vocab_size]
  rw [mkIndex_o2i] at h ⊢
  omega

theorem vocab_size_nonneg {α : Type} [DecidableEq α] (vocab : List α) (start : Int) :
    0 ≤ (mkIndex vocab start).vocab_size := by
  rw [vocab_size_eq_length]
  exact Int.ofNat_nonneg _

theorem mem_keys_iff_mem_vocab {α : Type} [DecidableEq α] (vocab : List α) (start : Int)
    (x : α) :
    x ∈ (mkIndex vocab start).object_to_index.map Prod.fst ↔ x ∈ vocab := by
  rw [mkIndex_o2i, initLoop_keys]
  simp

theorem o2i_isSome_iff_mem_vocab {α : Type} [DecidableEq α] (vocab : List α) (start : Int)
    (x : α) :
    (dictGet (mkIndex vocab start).object_to_index x).isSome ↔ x ∈ vocab := by
  rw [dictGet_isSome_iff, mem_keys_iff_mem_vocab]

theorem i2o_keys {α : Type} [DecidableEq α] (vocab : List α) (start : Int) :
    (mkIndex vocab start).index_to_object.map Prod.fst
      = (mkIndex vocab start).object_to_index.map Prod.snd := by
  rw [i2o_eq_map_swap, List.map_map]
  rfl

theorem i2o_keys_nodup {α : Type} [DecidableEq α] (vocab : List α) (start : Int) :
    ((mkIndex vocab start).index_to_object.map Prod.fst).Nodup := by
  rw [i2o_keys, o2i_snds]
  exact intRange_nodup start _

theorem mem_i2o_iff_mem_o2i {α : Type} [DecidableEq α] (vocab : List α) (start : Int)
    (x : α) (k : Int) :
    (k, x) ∈ (mkIndex vocab start).index_to_object ↔
      (x, k) ∈ (mkIndex vocab start).object_to_index := by
  rw [i2o_eq_map_swap]
  constructor
  · intro h
    rcases List.mem_map.1 h with ⟨p, hp, he⟩
    have h1 : p.2 = k := ((Prod.mk.injEq _ _ _ _).mp he).1
    have h2 : p.1 = x := ((Prod.mk.injEq _ _ _ _).mp he).2
    have : p = (x, k) := by
      rw [← h1, ← h2]
    rwa [this] at hp
  · intro h
    exact List.mem_map.2 ⟨(x, k), h, rfl⟩

theorem dictGet_o2i_iff {α : Type} [DecidableEq α] (vocab : List α) (start : Int)
    (x : α) (k : Int) :
    dictGet (mkIndex vocab start).object_to_index x = some k ↔
      (x, k) ∈ (mkIndex vocab start).object_to_index :=
  dictGet_eq_some_iff (o2i_keys_nodup vocab start) x k

theorem dictGet_i2o_iff {α : Type} [DecidableEq α] (vocab : List α) (start : Int)
    (x : α) (k : Int) :
    dictGet (mkIndex vocab start).index_to_object k = some x ↔
      (k, x) ∈ (mkIndex vocab start).index_to_object :=
  dictGet_eq_some_iff (i2o_keys_nodup vocab start) k x

theorem inverse_lookup {α : Type} [DecidableEq α] (vocab : List α) (start : Int)
    (x : α) (k : Int) :
    dictGet (mkIndex vocab start).object_to_index x = some k ↔
      dictGet (mkIndex vocab start).index_to_object k = some x := by
  rw [dictGet_o2i_iff, dictGet_i2o_iff, mem_i2o_iff_mem_o2i]

theorem o2i_some_bounds {α : Type} [DecidableEq α] (vocab : List α) (start : Int)
    (x : α) (k : Int)
    (h : dictGet (mkIndex vocab start).object_to_index x = some k) :
    start ≤ k ∧ k < start + (mkIndex vocab start).vocab_size := by
  have hmem : (x, k) ∈ (mkIndex vocab start).object_to_index :=
    (dictGet_o2i_iff vocab start x k).1 h
  have hsnd : k ∈ (mkIndex vocab start).object_to_index.map Prod.snd :=
    List.mem_map.2 ⟨(x, k), hmem, rfl⟩
  rw [o2i_snds] at hsnd
  have hb := (mem_intRange start _ k).1 hsnd
  rw [vocab_size_eq_length]
  omega

theorem i2o_isSome_iff_range {α : Type} [DecidableEq α] (vocab : List α) (start : Int)
    (k : Int) :
    (dictGet (mkIndex vocab start).index_to_object k).isSome ↔
      start ≤ k ∧ k < start + (mkIndex vocab start).vocab_size := by
  rw [dictGet_isSome_iff, i2o_keys, o2i_snds, mem_intRange, vocab_size_eq_length]

theorem mem_vocab_exists_index {α : Type} [DecidableEq α] (vocab : List α) (start : Int)
    (x : α) (h : x ∈ vocab) :
    ∃ k, dictGet (mkIndex vocab start).object_to_index x = some k := by
  have hs := (o2i_isSome_iff_mem_vocab vocab start x).2 h
  exact Option.isSome_iff_exists.1 hs

theorem objects_to_indexes_get {α : Type} [DecidableEq α] (I : Index α) (seq : List α)
    (i : Nat) (h : i < seq.length) (h2 : i < (I.objects_to_indexes seq).length) :
    (I.objects_to_indexes seq).get ⟨i, h2⟩
      = (dictGet I.object_to_index (seq.get ⟨i, h⟩)).getD I.not_in_index := by
  rw [List.get_eq_getElem, List.get_eq_getElem]
  simp [Index.objects_to_indexes]

/-! ### Claim theorems -/

/-- C1: for every vocabulary `V` (any `start`) and every sequence `S` whose
elements are all drawn from `V`, decoding the encoding is the identity:
`indexes_to_objects (objects_to_indexes S) = S`, same elements, same order,
same length. -/
theorem round_trip_index {α : Type} [DecidableEq α] (vocab : List α) (start : Int)
    (S : List α) (hS : ∀ x ∈ S, x ∈ vocab) :
    (mkIndex vocab start).indexes_to_objects
      ((mkIndex vocab start).objects_to_indexes S) = S := by
  induction S with
  | nil => rfl
  | cons x rest ih =>
    have hx : x ∈ vocab := hS x (List.mem_cons_self _ _)
    obtain ⟨k, hk⟩ := mem_vocab_exists_index vocab start x hx
    have hback : dictGet (mkIndex vocab start).index_to_object k = some x :=
      (inverse_lookup vocab start x k).1 hk
    have hrest : ∀ y ∈ rest, y ∈ vocab := fun y hy => hS y (List.mem_cons_of_mem _ hy)
    have ih2 := ih hrest
    simp only [Index.objects_to_indexes, Index.indexes_to_objects, List.map_cons,
      List.filterMap_cons, hk, Option.getD_some, hback] at ih2 ⊢
    rw [ih2]

/-- C1 witness: a concrete round trip through a sequence with repetitions. -/
theorem round_trip_index_witness :
    (mkIndex ["a", "b"] (0 : Int)).indexes_to_objects
      ((mkIndex ["a", "b"] (0 : Int)).objects_to_indexes ["b", "a", "b"])
      = ["b", "a", "b"] :=
  round_trip_index ["a", "b"] 0 ["b", "a", "b"] (by decide)

/-- C2: construction iterates the vocabulary once in order and assigns indexes
by first occurrence.  Concretely, `["b","a","b","c"]` with `start = 0` gives
`b:0, a:1, c:2`, `vocab_size = 3`, `not_in_index = -1`; in general appending a
duplicate of an already-seen object changes nothing, while appending a new
object extends both dictionaries with the previous index plus 1 (that is,
`start + vocab_size`) and increments `vocab_size`. -/
theorem construction_first_occurrence :
    ((mkIndex ["b", "a", "b", "c"] (0 : Int)).object_to_index
        = [("b", 0), ("a", 1), ("c", 2)] ∧
      (mkIndex ["b", "a", "b", "c"] (0 : Int)).index_to_object
        = [(0, "b"), (1, "a"), (2, "c")] ∧
      (mkIndex ["b", "a", "b", "c"] (0 : Int)).vocab_size = 3 ∧
      (mkIndex ["b", "a", "b", "c"] (0 : Int)).not_in_index = -1) ∧
    ∀ (α : Type) [DecidableEq α] (vocab : List α) (start : Int) (x : α),
      (x ∈ vocab → mkIndex (vocab ++ [x]) start = mkIndex vocab start) ∧
      (x ∉ vocab →
        (mkIndex (vocab ++ [x]) start).object_to_index
          = (mkIndex vocab start).object_to_index
            ++ [(x, start + (mkIndex vocab start).vocab_size)] ∧
        (mkIndex (vocab ++ [x]) start).index_to_object
          = (mkIndex vocab start).index_to_object
            ++ [(start + (mkIndex vocab start).vocab_size, x)] ∧
        (mkIndex (vocab ++ [x]) start).vocab_size
          = (mkIndex vocab start).vocab_size + 1) := by
  refine ⟨by decide, ?_⟩
  intro α instα vocab start x
  have happ := initLoop_append vocab [x] ([] : List (α × Int)) [] start
  have hidx : (initLoop vocab ([] : List (α × Int)) [] start).2.2
      = start + (mkIndex vocab start).vocab_size := by
    rw [vocab_size_eq_length, mkIndex_o2i]
    have h3 := (mkIndex_inv vocab start).2.2.1
    rw [mkIndex_o2i] at h3
    omega
  constructor
  · intro hx
    have hsome : (dictGet (initLoop vocab ([] : List (α × Int)) [] start).1 x).isSome := by
      rw [← mkIndex_o2i]
      exact (o2i_isSome_iff_mem_vocab vocab start x).2 hx
    obtain ⟨k, hk⟩ := Option.isSome_iff_exists.1 hsome
    have hstep : initLoop (vocab ++ [x]) ([] : List (α × Int)) [] start
        = initLoop vocab ([] : List (α × Int)) [] start := by
      rw [happ]
      simp [initLoop, hk]
    exact congrArg
      (fun r => (⟨start, r.1, r.2.1, r.2.2 - start, start - 1⟩ : Index α)) hstep
  · intro hx
    have hnone : dictGet (initLoop vocab ([] : List (α × Int)) [] start).1 x = none := by
      rw [← mkIndex_o2i]
      rw [← Option.not_isSome_iff_eq_none, o2i_isSome_iff_mem_vocab]
      exact hx
    have hstep : initLoop (vocab ++ [x]) ([] : List (α × Int)) [] start
        = ((initLoop vocab ([] : List (α × Int)) [] start).1
              ++ [(x, (initLoop vocab ([] : List (α × Int)) [] start).2.2)],
           (initLoop vocab ([] : List (α × Int)) [] start).2.1
              ++ [((initLoop vocab ([] : List (α × Int)) [] start).2.2, x)],
           (initLoop vocab ([] : List (α × Int)) [] start).2.2 + 1) := by
      rw [happ]
      simp [initLoop, hnone]
    refine ⟨?_, ?_, ?_⟩
    · rw [mkIndex_o2i, mkIndex_o2i, hstep, ← hidx]
    · rw [mkIndex_i2o, mkIndex_i2o, hstep, ← hidx]
    · rw [mkIndex_vocab_size, mkIndex_vocab_size, hstep]
      simp only []
      omega

/-- C2 witness: appending the duplicate `"b"` to `["b","a"]` leaves the whole
index unchanged, while appending the new `"c"` extends `object_to_index` with
the next index. -/
theorem construction_first_occurrence_witness :
    mkIndex (["b", "a"] ++ ["b"]) (0 : Int) = mkIndex ["b", "a"] (0 : Int) ∧
    (mkIndex (["b", "a"] ++ ["c"]) (0 : Int)).object_to_index
      = (mkIndex ["b", "a"] (0 : Int)).object_to_index
        ++ [("c", 0 + (mkIndex ["b", "a"] (0 : Int)).vocab_size)] :=
  ⟨(construction_first_occurrence.2 String ["b", "a"] 0 "b").1 (by decide),
    ((construction_first_occurrence.2 String ["b", "a"] 0 "c").2 (by decide)).1⟩

/-- C3: for every constructed index, `object_to_index` and `index_to_object`
are exact inverses, the assigned indexes are exactly the contiguous range
`[start, start + vocab_size - 1]` with no gaps or duplicates, and
`not_in_index = start - 1` is never a key of `index_to_object`.  (Operations
cannot mutate the mapping: they are pure functions of the `Index` value.) -/
theorem index_invariants {α : Type} [DecidableEq α] (vocab : List α) (start : Int) :
    (∀ (x : α) (k : Int),
      dictGet (mkIndex vocab start).object_to_index x = some k ↔
        dictGet (mkIndex vocab start).index_to_object k = some x) ∧
    (∀ k : Int,
      (dictGet (mkIndex vocab start).index_to_object k).isSome ↔
        start ≤ k ∧ k < start + (mkIndex vocab start).vocab_size) ∧
    ((mkIndex vocab start).object_to_index.map Prod.snd).Nodup ∧
    (mkIndex vocab start).not_in_index = start - 1 ∧
    dictGet (mkIndex vocab start).index_to_object (mkIndex vocab start).not_in_index
      = none := by
  refine ⟨inverse_lookup vocab start, i2o_isSome_iff_range vocab start, ?_,
    mkIndex_not_in_index vocab start, ?_⟩
  · rw [o2i_snds]
    exact intRange_nodup start _
  · rw [mkIndex_not_in_index]
    by_contra hne
    have hs : (dictGet (mkIndex vocab start).index_to_object (start - 1)).isSome :=
      Option.ne_none_iff_isSome.1 hne
    rw [i2o_isSome_iff_range] at hs
    omega

/-- C5: `objects_to_indexes` is length- and order-preserving with no
deduplication: position `i` of the output holds the assigned index of the
`i`-th input object when it is in the vocabulary and `start - 1` otherwise;
concretely, with vocabulary `["a","b"]` and `start = 0`,
`objects_to_indexes ["a","z"] = [0, -1]`. -/
theorem objects_to_indexes_spec {α : Type} [DecidableEq α] (vocab : List α)
    (start : Int) (seq : List α) :
    ((mkIndex vocab start).objects_to_indexes seq).length = seq.length ∧
    (∀ (i : Nat) (h : i < seq.length)
        (h2 : i < ((mkIndex vocab start).objects_to_indexes seq).length),
      (seq.get ⟨i, h⟩ ∈ vocab →
        dictGet (mkIndex vocab start).object_to_index (seq.get ⟨i, h⟩)
          = some (((mkIndex vocab start).objects_to_indexes seq).get ⟨i, h2⟩)) ∧
      (seq.get ⟨i, h⟩ ∉ vocab →
        ((mkIndex vocab start).objects_to_indexes seq).get ⟨i, h2⟩ = start - 1)) ∧
    (mkIndex ["a", "b"] (0 : Int)).objects_to_indexes ["a", "z"] = [0, -1] := by
  refine ⟨by simp [Index.objects_to_indexes], ?_, by rfl⟩
  intro i h h2
  have hget := objects_to_indexes_get (mkIndex vocab start) seq i h h2
  rw [mkIndex_not_in_index] at hget
  constructor
  · intro hx
    obtain ⟨k, hk⟩ := mem_vocab_exists_index vocab start _ hx
    rw [hget, hk, Option.getD_some]
  · intro hx
    have hnone : dictGet (mkIndex vocab start).object_to_index (seq.get ⟨i, h⟩)
        = none := by
      rw [← Option.not_isSome_iff_eq_none, o2i_isSome_iff_mem_vocab]
      exact hx
    rw [hget, hnone]
    rfl

/-- C5 witness: the out-of-vocabulary sentinel example, with position 0 in
vocabulary and position 1 out of vocabulary. -/
theorem objects_to_indexes_spec_witness :
    dictGet (mkIndex ["a", "b"] (0 : Int)).object_to_index "a"
      = some (((mkIndex ["a", "b"] (0 : Int)).objects_to_indexes ["a", "z"]).get
          ⟨0, by decide⟩) :=
  (((objects_to_indexes_spec ["a", "b"] 0 ["a", "z"]).2.1 0 (by decide) (by decide)).1
    (by decide))

theorem maxLen_ge {α : Type} (seqs : List (List α)) (seq : List α) (h : seq ∈ seqs) :
    seq.length ≤ maxLen seqs := by
  induction seqs with
  | nil => cases h
  | cons s rest ih =>
    rcases List.mem_cons.1 h with rfl | hm
    · simp only [maxLen]
      exact Nat.le_max_left _ _
    · simp only [maxLen]
      exact le_trans (ih hm) (Nat.le_max_right _ _)

theorem objects_to_indexes_length {α : Type} [DecidableEq α] (I : Index α)
    (seq : List α) : (I.objects_to_indexes seq).length = seq.length := by
  simp [Index.objects_to_indexes]

/-- C4 counterexample: on an empty outer sequence, `objects_to_index_matrix`
hits the unguarded `max` over an empty collection, which raises `ValueError`:
the result is that error, not a zero-row matrix, and the error is not an
explicit invalid-argument failure. -/
theorem empty_matrix_counterexample :
    (mkIndex ["a", "b"] (0 : Int)).objects_to_index_matrix ([] : List (List String))
        = Except.error PyErr.emptyMaxValueError ∧
    (Except.error PyErr.emptyMaxValueError : Except PyErr (List (List Int)))
        ≠ Except.ok [] ∧
    PyErr.emptyMaxValueError ≠ PyErr.invalidArgument := by
  refine ⟨rfl, ?_, by decide⟩
  intro h
  exact Except.noConfusion h

/-- C4 amended: `objects_to_index_matrix` does not guard the empty outer
sequence; it computes the maximum over the empty collection, so the call
fails with the `ValueError` of Python `max` (for every index, whatever its
vocabulary or start), rather than raising an explicit invalid-argument error
or returning a zero-row matrix. -/
theorem empty_matrix_unguarded {α : Type} [DecidableEq α] (I : Index α) :
    I.objects_to_index_matrix [] = Except.error PyErr.emptyMaxValueError := rfl

/-- C6: on a non-empty outer sequence, `objects_to_index_matrix` returns one
row per inner sequence, where row `i` is the `objects_to_indexes` encoding of
inner sequence `i` followed by `not_in_index = start - 1` padding, and every
row has length `maxLen seqs` (so rows of maximal length get no padding). -/
theorem objects_to_index_matrix_spec {α : Type} [DecidableEq α] (vocab : List α)
    (start : Int) (seqs : List (List α)) (hne : seqs ≠ []) :
    (mkIndex vocab start).objects_to_index_matrix seqs
      = Except.ok (seqs.map (fun seq =>
          (mkIndex vocab start).objects_to_indexes seq
            ++ List.replicate (maxLen seqs - seq.length) (start - 1))) ∧
    ∀ row ∈ seqs.map (fun seq =>
        (mkIndex vocab start).objects_to_indexes seq
          ++ List.replicate (maxLen seqs - seq.length) (start - 1)),
      row.length = maxLen seqs := by
  constructor
  · cases seqs with
    | nil => exact absurd rfl hne
    | cons s rest =>
      simp only [Index.objects_to_index_matrix, Index.objects_to_indexes,
        mkIndex_not_in_index, List.length_map]
  · intro row hrow
    rcases List.mem_map.1 hrow with ⟨seq, hseq, rfl⟩
    have hle : seq.length ≤ maxLen seqs := maxLen_ge seqs seq hseq
    rw [List.length_append, List.length_replicate, objects_to_indexes_length]
    omega

/-- C6 witness: the padding example from the specification,
`objects_to_index_matrix [["a"], ["a","b"]] = [[0, -1], [0, 1]]`. -/
theorem objects_to_index_matrix_spec_witness :
    (mkIndex ["a", "b"] (0 : Int)).objects_to_index_matrix [["a"], ["a", "b"]]
      = Except.ok [[0, -1], [0, 1]] :=
  ((objects_to_index_matrix_spec ["a", "b"] 0 [["a"], ["a", "b"]]
    (by decide)).1).trans (by rfl)

/-! ### The one-hot write loop -/

theorem getD_set_self (v : List Int) (j : Nat) (a : Int) (h : j < v.length) :
    (v.set j a).getD j 0 = a := by
  rw [List.getD_eq_getElem?_getD, List.getElem?_set_self h]
  rfl

theorem getD_set_ne (v : List Int) (j i : Nat) (a : Int) (h : j ≠ i) :
    (v.set j a).getD i 0 = v.getD i 0 := by
  rw [List.getD_eq_getElem?_getD, List.getElem?_set_ne h, ← List.getD_eq_getElem?_getD]

theorem range_map_getD (v : List Int) :
    (List.range v.length).map (fun i => v.getD i 0) = v := by
  apply List.ext_getElem
  · simp
  · intro n h1 h2
    simp only [List.getElem_map, List.getElem_range, List.getD_eq_getElem?_getD,
      List.getElem?_eq_getElem h2]
    rfl

theorem getD_replicate_zero (n i : Nat) : (List.replicate n (0 : Int)).getD i 0 = 0 := by
  rw [List.getD_eq_getElem?_getD, List.getElem?_replicate]
  by_cases h : i < n
  · rw [if_pos h]
    rfl
  · rw [if_neg h]
    rfl

/-- The write loop, starting from any vector whose length bounds every
assigned index, never errors and produces the pointwise union of the initial
vector with 1s at the indexes assigned to members of the sequence. -/
theorem binVecLoop_eq {α : Type} [DecidableEq α] (o2i : List (α × Int)) (seq : List α) :
    ∀ (v : List Int),
      (∀ (x : α) (k : Int), dictGet o2i x = some k → 0 ≤ k ∧ k < (v.length : Int)) →
      binVecLoop o2i seq v
        = Except.ok ((List.range v.length).map (fun i =>
            if ∃ x ∈ seq, dictGet o2i x = some (Int.ofNat i) then 1
            else v.getD i 0)) := by
  induction seq with
  | nil =>
    intro v hb
    have hp : ∀ i ∈ List.range v.length,
        (if ∃ x ∈ ([] : List α), dictGet o2i x = some (Int.ofNat i) then (1 : Int)
          else v.getD i 0)
          = v.getD i 0 := by
      intro i _
      simp
    rw [binVecLoop, List.map_congr_left hp, range_map_getD]
  | cons obj rest ih =>
    intro v hb
    cases hdg : dictGet o2i obj with
    | none =>
      have hiff : ∀ i : Nat,
          (∃ x ∈ rest, dictGet o2i x = some (Int.ofNat i)) ↔
            (∃ x ∈ obj :: rest, dictGet o2i x = some (Int.ofNat i)) := by
        intro i
        constructor
        · rintro ⟨x, hx, hgx⟩
          exact ⟨x, List.mem_cons_of_mem _ hx, hgx⟩
        · rintro ⟨x, hx, hgx⟩
          rcases List.mem_cons.1 hx with rfl | hx2
          · rw [hdg] at hgx
            cases hgx
          · exact ⟨x, hx2, hgx⟩
      simp only [binVecLoop, hdg]
      rw [ih v hb]
      congr 1
      apply List.map_congr_left
      intro i _
      exact if_congr (hiff i) rfl rfl
    | some k =>
      obtain ⟨hk0, hklen⟩ := hb obj k hdg
      have hneg : ¬ k < 0 := by omega
      have hset : npSet v k 1 = Except.ok (v.set k.toNat 1) := by
        simp only [npSet, if_neg hneg]
        rw [if_pos ⟨hk0, hklen⟩]
      have hb2 : ∀ (x : α) (k2 : Int), dictGet o2i x = some k2 →
          0 ≤ k2 ∧ k2 < ((v.set k.toNat 1).length : Int) := by
        intro x k2 hx
        rw [List.length_set]
        exact hb x k2 hx
      simp only [binVecLoop, hdg, hset]
      rw [ih (v.set k.toNat 1) hb2]
      congr 1
      rw [List.length_set]
      apply List.map_congr_left
      intro i hi
      have hi2 : i < v.length := List.mem_range.1 hi
      by_cases hrest : ∃ x ∈ rest, dictGet o2i x = some (Int.ofNat i)
      · have hfull : ∃ x ∈ obj :: rest, dictGet o2i x = some (Int.ofNat i) :=
          let ⟨x, hx, hgx⟩ := hrest
          ⟨x, List.mem_cons_of_mem _ hx, hgx⟩
        rw [if_pos hrest, if_pos hfull]
      · by_cases hik : k = Int.ofNat i
        · have hfull : ∃ x ∈ obj :: rest, dictGet o2i x = some (Int.ofNat i) :=
            ⟨obj, List.mem_cons_self _ _, by rw [hdg, hik]⟩
          rw [if_neg hrest, if_pos hfull]
          have hki : k.toNat = i := by
            rw [hik, Int.ofNat_eq_coe]
            omega
          rw [hki]
          exact getD_set_self v i 1 hi2
        · have hfull : ¬ ∃ x ∈ obj :: rest, dictGet o2i x = some (Int.ofNat i) := by
            rintro ⟨x, hx, hgx⟩
            rcases List.mem_cons.1 hx with rfl | hx2
            · rw [hdg] at hgx
              exact hik (Option.some.inj hgx)
            · exact hrest ⟨x, hx2, hgx⟩
          rw [if_neg hrest, if_neg hfull]
          have hki : k.toNat ≠ i := by
            intro he
            apply hik
            rw [Int.ofNat_eq_coe]
            omega
          exact getD_set_ne v k.toNat i 1 hki

/-- C7: for a vocabulary indexed with `start ≥ 0`, `objects_to_binary_vector`
succeeds on every input sequence and returns the vector of length
`vocab_size + start` holding 1 exactly at the index assigned to each
in-vocabulary member of the input and 0 everywhere else (out-of-vocabulary
objects set nothing), and the result coincides with the encoding of the
deduplicated sequence. -/
theorem objects_to_binary_vector_spec {α : Type} [DecidableEq α] (vocab : List α)
    (start : Int) (hstart : 0 ≤ start) (seq : List α) :
    (mkIndex vocab start).objects_to_binary_vector seq
      = Except.ok ((List.range ((mkIndex vocab start).vocab_size + start).toNat).map
          (fun i =>
            if ∃ x ∈ seq, dictGet (mkIndex vocab start).object_to_index x
                = some (Int.ofNat i) then 1 else 0)) ∧
    (mkIndex vocab start).objects_to_binary_vector seq
      = (mkIndex vocab start).objects_to_binary_vector seq.dedup := by
  have hvs := vocab_size_nonneg vocab start
  have hneg : ¬ ((mkIndex vocab start).vocab_size + (mkIndex vocab start).start < 0) := by
    rw [mkIndex_start]
    omega
  have hb : ∀ (x : α) (k : Int),
      dictGet (mkIndex vocab start).object_to_index x = some k →
        0 ≤ k ∧ k <
          ((List.replicate ((mkIndex vocab start).vocab_size
              + (mkIndex vocab start).start).toNat (0 : Int)).length : Int) := by
    intro x k hk
    have hbd := o2i_some_bounds vocab start x k hk
    rw [List.length_replicate, mkIndex_start]
    omega
  have hmain : (mkIndex vocab start).objects_to_binary_vector seq
      = Except.ok ((List.range ((mkIndex vocab start).vocab_size + start).toNat).map
          (fun i =>
            if ∃ x ∈ seq, dictGet (mkIndex vocab start).object_to_index x
                = some (Int.ofNat i) then 1 else 0)) := by
    rw [Index.objects_to_binary_vector, if_neg hneg, binVecLoop_eq _ _ _ hb]
    congr 1
    rw [List.length_replicate, mkIndex_start]
    apply List.map_congr_left
    intro i _
    rw [getD_replicate_zero]
  refine ⟨hmain, ?_⟩
  rw [hmain, Index.objects_to_binary_vector, if_neg hneg, binVecLoop_eq _ _ _ hb]
  congr 1
  rw [List.length_replicate, mkIndex_start]
  apply List.map_congr_left
  intro i _
  rw [getD_replicate_zero]
  have hiff : (∃ x ∈ seq, dictGet (mkIndex vocab start).object_to_index x
        = some (Int.ofNat i)) ↔
      (∃ x ∈ seq.dedup, dictGet (mkIndex vocab start).object_to_index x
        = some (Int.ofNat i)) := by
    constructor
    · rintro ⟨x, hx, hgx⟩
      exact ⟨x, List.mem_dedup.2 hx, hgx⟩
    · rintro ⟨x, hx, hgx⟩
      exact ⟨x, List.mem_dedup.1 hx, hgx⟩
  exact if_congr hiff rfl rfl

/-- C7 witness: the one-hot idempotence example, `["a","c","a"]` encodes to
the same vector as its deduplication, and that vector is `[1, 0, 1]`. -/
theorem objects_to_binary_vector_spec_witness :
    (mkIndex ["a", "b", "c"] (0 : Int)).objects_to_binary_vector ["a", "c", "a"]
      = (mkIndex ["a", "b", "c"] (0 : Int)).objects_to_binary_vector
          (["a", "c", "a"].dedup) ∧
    (mkIndex ["a", "b", "c"] (0 : Int)).objects_to_binary_vector ["a", "c", "a"]
      = Except.ok [1, 0, 1] :=
  ⟨(objects_to_binary_vector_spec ["a", "b", "c"] 0 (by decide) ["a", "c", "a"]).2,
    ((objects_to_binary_vector_spec ["a", "b", "c"] 0 (by decide)
      ["a", "c", "a"]).1).trans (by rfl)⟩

/-- C9: with `start ≥ 0`, `objects_to_binary_matrix` accepts the empty outer
sequence without error and returns the matrix with zero rows and
`vocab_size + start` columns, unlike `objects_to_index_matrix`, which fails
on the same input. -/
theorem objects_to_binary_matrix_empty {α : Type} [DecidableEq α] (vocab : List α)
    (start : Int) (hstart : 0 ≤ start) :
    (mkIndex vocab start).objects_to_binary_matrix ([] : List (List α))
      = Except.ok (((mkIndex vocab start).vocab_size + start).toNat, []) ∧
    (mkIndex vocab start).objects_to_index_matrix ([] : List (List α))
      = Except.error PyErr.emptyMaxValueError := by
  have hvs := vocab_size_nonneg vocab start
  have hneg : ¬ ((mkIndex vocab start).vocab_size + (mkIndex vocab start).start < 0) := by
    rw [mkIndex_start]
    omega
  constructor
  · rw [Index.objects_to_binary_matrix, if_neg hneg]
    rfl
  · rfl

/-- C9 witness: with vocabulary `["a","b"]` and `start = 0`, the empty outer
sequence yields a 0-row matrix of width 2. -/
theorem objects_to_binary_matrix_empty_witness :
    (mkIndex ["a", "b"] (0 : Int)).objects_to_binary_matrix ([] : List (List String))
      = Except.ok (2, []) :=
  ((objects_to_binary_matrix_empty ["a", "b"] 0 (by decide)).1).trans (by rfl)

/-- C10: for an index constructed with `start ≥ 0`, every index the write
loop of `objects_to_binary_vector` can write to lies in
`[0, vocab_size + start)`, so the out-of-bounds error branch is unreachable
and the function never returns an error on any input sequence. -/
theorem binary_vector_writes_in_bounds {α : Type} [DecidableEq α] (vocab : List α)
    (start : Int) (hstart : 0 ≤ start) (seq : List α) :
    (∀ (x : α) (k : Int),
      dictGet (mkIndex vocab start).object_to_index x = some k →
        0 ≤ k ∧ k < (mkIndex vocab start).vocab_size + start) ∧
    ∀ e : PyErr, (mkIndex vocab start).objects_to_binary_vector seq
      ≠ Except.error e := by
  have hvs := vocab_size_nonneg vocab start
  have hneg : ¬ ((mkIndex vocab start).vocab_size + (mkIndex vocab start).start < 0) := by
    rw [mkIndex_start]
    omega
  have hb : ∀ (x : α) (k : Int),
      dictGet (mkIndex vocab start).object_to_index x = some k →
        0 ≤ k ∧ k <
          ((List.replicate ((mkIndex vocab start).vocab_size
              + (mkIndex vocab start).start).toNat (0 : Int)).length : Int) := by
    intro x k hk
    have hbd := o2i_some_bounds vocab start x k hk
    rw [List.length_replicate, mkIndex_start]
    omega
  constructor
  · intro x k hk
    have hbd := o2i_some_bounds vocab start x k hk
    omega
  · intro e hcontra
    rw [Index.objects_to_binary_vector, if_neg hneg, binVecLoop_eq _ _ _ hb] at hcontra
    exact Except.noConfusion hcontra

/-- C10 witness: a concrete call whose writes are all in bounds and which in
particular does not raise the out-of-bounds error. -/
theorem binary_vector_writes_in_bounds_witness :
    (mkIndex ["a", "b"] (0 : Int)).objects_to_binary_vector ["a", "z"]
      ≠ Except.error PyErr.indexOutOfBounds :=
  (binary_vector_writes_in_bounds ["a", "b"] 0 (by decide) ["a", "z"]).2
    PyErr.indexOutOfBounds

/-! ### Decoding one-hot vectors -/

theorem pyEnum_eq (vec : List Int) :
    ∀ k : Nat, pyEnum k vec
      = (List.range vec.length).map (fun j => (k + j, vec.getD j 0)) := by
  induction vec with
  | nil => intro k; rfl
  | cons a rest ih =>
    intro k
    rw [pyEnum, ih (k + 1), List.length_cons, List.range_succ_eq_map, List.map_cons,
      List.map_map]
    refine congrArg₂ List.cons ?_ ?_
    · simp
    · apply List.map_congr_left
      intro j _
      simp only [Function.comp_apply, List.getD_cons_succ, Nat.succ_eq_add_one]
      have hadd : k + 1 + j = k + (j + 1) := by omega
      rw [hadd]

theorem pyEnum_zero (vec : List Int) :
    pyEnum 0 vec = (List.range vec.length).map (fun j => (j, vec.getD j 0)) := by
  rw [pyEnum_eq vec 0]
  apply List.map_congr_left
  intro j _
  simp

theorem pyEnum_append (v1 v2 : List Int) :
    ∀ k : Nat, pyEnum k (v1 ++ v2) = pyEnum k v1 ++ pyEnum (k + v1.length) v2 := by
  induction v1 with
  | nil =>
    intro k
    simp [pyEnum]
  | cons a rest ih =>
    intro k
    rw [List.cons_append, pyEnum, ih (k + 1), pyEnum, List.length_cons,
      List.cons_append]
    have hk : k + 1 + rest.length = k + (rest.length + 1) := by omega
    rw [hk]

/-- C8: `binary_vector_to_objects` scans positions in increasing order:
membership in the output means some position holds exactly 1 and is a key of
`index_to_object`, and extending the vector on the right appends exactly the
decoding of the new position — the object at that index when the new value is
exactly 1 and the position is mapped, and nothing otherwise (so any value
other than 1, including other nonzero values, is treated as unset). -/
theorem binary_vector_to_objects_spec {α : Type} [DecidableEq α] (vocab : List α)
    (start : Int) (vec : List Int) (w : Int) :
    (∀ x : α, x ∈ (mkIndex vocab start).binary_vector_to_objects vec ↔
      ∃ i : Nat, i < vec.length ∧ vec.getD i 0 = 1 ∧
        dictGet (mkIndex vocab start).index_to_object (Int.ofNat i) = some x) ∧
    (mkIndex vocab start).binary_vector_to_objects (vec ++ [w])
      = (mkIndex vocab start).binary_vector_to_objects vec
        ++ (if w = 1 then
            (dictGet (mkIndex vocab start).index_to_object
              (Int.ofNat vec.length)).toList
          else []) := by
  constructor
  · intro x
    rw [Index.binary_vector_to_objects, List.mem_filterMap]
    constructor
    · rintro ⟨p, hp, hf⟩
      rw [pyEnum_zero] at hp
      rcases List.mem_map.1 hp with ⟨j, hj, rfl⟩
      have hjn : j < vec.length := List.mem_range.1 hj
      by_cases h1 : vec.getD j 0 = 1
      · rw [if_pos h1] at hf
        exact ⟨j, hjn, h1, hf⟩
      · rw [if_neg h1] at hf
        cases hf
    · rintro ⟨i, hin, h1, hx⟩
      refine ⟨(i, vec.getD i 0), ?_, ?_⟩
      · rw [pyEnum_zero]
        exact List.mem_map.2 ⟨i, List.mem_range.2 hin, rfl⟩
      · have h1p : (i, vec.getD i 0).2 = 1 := h1
        rw [if_pos h1p]
        exact hx
  · rw [Index.binary_vector_to_objects, Index.binary_vector_to_objects,
      pyEnum_append vec [w] 0, List.filterMap_append]
    congr 1
    simp only [pyEnum, Nat.zero_add]
    rcases hdg : dictGet (mkIndex vocab start).index_to_object (Int.ofNat vec.length)
      with _ | a
    · rw [Int.ofNat_eq_coe] at hdg
      by_cases hw : w = 1
      · simp [List.filterMap_cons, hw, hdg]
      · simp [List.filterMap_cons, hw, hdg]
    · rw [Int.ofNat_eq_coe] at hdg
      by_cases hw : w = 1
      · simp [List.filterMap_cons, hw, hdg]
      · simp [List.filterMap_cons, hw, hdg]

end StringsToVectors
